import Mathlib

/-!
Verification of the flow-field and scenario-generation engine of
`marinenav_env` (file `env.py`).

The shallow embedding below translates the Python source into Lean:

* floats are modelled as real numbers (`ℝ`); the one place where IEEE
  semantics matters (a division whose divisor can be zero inside
  `check_core`) is modelled explicitly and documented at the definition;
* the PRNG (`np.random.RandomState(seed)`) is modelled as a stream of
  draws, a function `ℕ → Draw`; a seed determines the stream, which is
  numpy's documented contract for `RandomState`;
* the two unbounded `while True:` generation loops of `Env.reset` are
  modelled as fuel-indexed recursions returning `Option`: `some` is the
  value returned by the loop, `none` means the loop has not returned
  within `fuel` iterations (so `∀ fuel, … = none` models divergence).
-/

namespace MarineNav

open scoped Classical

/-- Data model of `Core` (env.py lines 7-14): position, rotation sense,
circulation strength. -/
structure Core where
  x : ℝ
  y : ℝ
  clockwise : Bool
  Gamma : ℝ

/-- Data model of `Obstacle` (env.py lines 16-22): position and radius. -/
structure Obstacle where
  x : ℝ
  y : ℝ
  r : ℝ

/-- Map width, env.py line 30. -/
noncomputable def width : ℝ := 50

/-- Map height, env.py line 31. -/
noncomputable def height : ℝ := 50

/-- Radius of a vortex core, `self.r`, env.py line 32. -/
noncomputable def r : ℝ := 0.5

/-- Max allowable speed when two currents flow towards each other,
`self.v_rel_max`, env.py line 33. -/
noncomputable def v_rel_max : ℝ := 0.5

/-- Max allowable relative speed fraction at another vortex core,
`self.p`, env.py line 34. -/
noncomputable def p : ℝ := 0.8

/-- Speed range of a vortex at the edge of its core, `self.v_range`,
env.py line 35. -/
noncomputable def v_range : ℝ × ℝ := (5, 10)

/-- Radius range of an obstacle, `self.obs_r_range`, env.py line 36. -/
noncomputable def obs_r_range : ℝ × ℝ := (1, 5)

/-- Distance between two core centers, env.py lines 140-142:
`np.sqrt(dx*dx+dy*dy)`. -/
noncomputable def coreDist (ci cj : Core) : ℝ :=
  Real.sqrt ((ci.x - cj.x) * (ci.x - cj.x) + (ci.y - cj.y) * (ci.y - cj.y))

/-- Boundary radius of a core, env.py lines 147-148:
`Gamma / (2*np.pi*v_rel_max)`. -/
noncomputable def boundary (c : Core) : ℝ :=
  c.Gamma / (2 * Real.pi * v_rel_max)

/-- Same-rotation-sense acceptance test, env.py lines 144-150: the
candidate is rejected iff `dis < boundary_i + boundary_j`. -/
noncomputable def sameDirOk (ci cj : Core) : Prop :=
  ¬ (coreDist ci cj < boundary ci + boundary cj)

/-- Opposite-rotation-sense acceptance test, env.py lines 151-159: the
candidate is rejected iff `Gamma_l / (2π(dis-2r)) > p * Gamma_s / (2π r)`.
The source computes this over IEEE floats: when `dis = 2r` the left
division yields `+inf` for a positive `Gamma_l` (hence rejection), `nan`
for `Gamma_l = 0` and `-inf` for negative `Gamma_l` (both of which make
the `>` comparison false, hence acceptance). The first conjunct below
reproduces the singular case exactly, the second the regular case. -/
noncomputable def oppositeOk (ci cj : Core) : Prop :=
  ¬ (coreDist ci cj = 2 * r ∧ 0 < max ci.Gamma cj.Gamma) ∧
  (coreDist ci cj ≠ 2 * r →
    ¬ (max ci.Gamma cj.Gamma / (2 * Real.pi * (coreDist ci cj - 2 * r)) >
       p * (min ci.Gamma cj.Gamma / (2 * Real.pi * r))))

/-- Acceptance test of a candidate core `cj` against one existing core
`ci`, env.py lines 144-159. -/
noncomputable def coreOk (ci cj : Core) : Prop :=
  if ci.clockwise = cj.clockwise then sameDirOk ci cj else oppositeOk ci cj

/-- `Env.check_core`, env.py lines 137-161: a candidate core is accepted
iff it passes the pairwise test against every already accepted core. -/
noncomputable def check_core (cores : List Core) (cj : Core) : Prop :=
  ∀ ci ∈ cores, coreOk ci cj

/-- Distance between a core center and an obstacle center, env.py
lines 167-169. -/
noncomputable def coreObsDist (c : Core) (o : Obstacle) : ℝ :=
  Real.sqrt ((c.x - o.x) * (c.x - o.x) + (c.y - o.y) * (c.y - o.y))

/-- Distance between two obstacle centers, env.py lines 176-178. -/
noncomputable def obsDist (o1 o2 : Obstacle) : ℝ :=
  Real.sqrt ((o1.x - o2.x) * (o1.x - o2.x) + (o1.y - o2.y) * (o1.y - o2.y))

/-- Core/obstacle acceptance test, env.py lines 165-172: rejected iff
`dis <= r + obs.r`. -/
noncomputable def coreObsOk (c : Core) (o : Obstacle) : Prop :=
  ¬ (coreObsDist c o ≤ r + o.r)

/-- Obstacle/obstacle acceptance test, env.py lines 174-181: rejected iff
`dis <= obstacle.r + obs.r`. -/
noncomputable def obsObsOk (o1 o2 : Obstacle) : Prop :=
  ¬ (obsDist o1 o2 ≤ o1.r + o2.r)

/-- `Env.check_obstacle`, env.py lines 163-183. -/
noncomputable def check_obstacle
    (cores : List Core) (obstacles : List Obstacle) (o : Obstacle) : Prop :=
  (∀ c ∈ cores, coreObsOk c o) ∧ (∀ o1 ∈ obstacles, obsObsOk o1 o)

/-- One tuple of random draws consumed by an iteration of the core
generation loop, env.py lines 60-62: a uniform position in the domain, a
binomial rotation sense, and a uniform edge speed. -/
structure CoreDraw where
  x : ℝ
  y : ℝ
  clockwise : Bool
  v_edge : ℝ

/-- Construction of the candidate core from the draws, env.py
lines 63-64: `Gamma = 2 * np.pi * self.r * v_edge`. -/
noncomputable def mkCore (d : CoreDraw) : Core :=
  ⟨d.x, d.y, d.clockwise, 2 * Real.pi * r * d.v_edge⟩

/-- One tuple of random draws consumed by an iteration of the obstacle
generation loop, env.py lines 84-86. -/
structure ObsDraw where
  x : ℝ
  y : ℝ
  r : ℝ

/-- Construction of the candidate obstacle from the draws, env.py
line 86. -/
def mkObstacle (d : ObsDraw) : Obstacle :=
  ⟨d.x, d.y, d.r⟩

/-- Core generation loop of `Env.reset`, env.py lines 59-69, as a
fuel-indexed recursion. `k` is the position in the random stream, `need`
the remaining count (`num_cores`, an integer that the Python code
decrements without a lower bound), `acc` the accepted cores in
acceptance order. `none` means the `while True:` loop has not returned
within `fuel` iterations. The loop body mirrors the source exactly:
draw, test `check_core`, append and decrement on acceptance, then break
iff the count has reached zero. -/
noncomputable def genCoresAux (cs : ℕ → CoreDraw) :
    ℕ → ℕ → ℤ → List Core → Option (List Core)
  | 0, _, _, _ => none
  | fuel + 1, k, need, acc =>
      let core := mkCore (cs k)
      if check_core acc core then
        if need - 1 = 0 then some (acc ++ [core])
        else genCoresAux cs fuel (k + 1) (need - 1) (acc ++ [core])
      else
        if need = 0 then some acc
        else genCoresAux cs fuel (k + 1) need acc

/-- Obstacle generation loop of `Env.reset`, env.py lines 83-91, as a
fuel-indexed recursion against the finalized core list. -/
noncomputable def genObsAux (cores : List Core) (os : ℕ → ObsDraw) :
    ℕ → ℕ → ℤ → List Obstacle → Option (List Obstacle)
  | 0, _, _, _ => none
  | fuel + 1, k, need, acc =>
      let o := mkObstacle (os k)
      if check_obstacle cores acc o then
        if need - 1 = 0 then some (acc ++ [o])
        else genObsAux cores os fuel (k + 1) (need - 1) (acc ++ [o])
      else
        if need = 0 then some acc
        else genObsAux cores os fuel (k + 1) need acc

/-- `Env.reset`, env.py lines 52-91: clears the previous scenario, runs
the core generation loop, then the obstacle generation loop against the
accepted cores; `some (cores, obstacles)` is the scenario state when
both loops return within `fuel` iterations each. -/
noncomputable def reset (cs : ℕ → CoreDraw) (os : ℕ → ObsDraw)
    (num_cores num_obs : ℤ) (fuel : ℕ) : Option (List Core × List Obstacle) :=
  match genCoresAux cs fuel 0 num_cores [] with
  | none => none
  | some cores =>
      match genObsAux cores os fuel 0 num_obs [] with
      | none => none
      | some obstacles => some (cores, obstacles)

/-- `Env.compute_speed`, env.py lines 213-217. -/
noncomputable def compute_speed (Gamma d : ℝ) : ℝ :=
  if d ≤ r then Gamma / (2 * Real.pi * r * r) * d
  else Gamma / (2 * Real.pi * d)

/-- A 2x2 matrix of reals, modelling the `np.matrix` values of the
source. -/
structure Mat2 where
  a : ℝ
  b : ℝ
  c : ℝ
  d : ℝ

/-- Matrix-vector product (`np.matrix` `*` against a 2x1 column). -/
def Mat2.mulVec (m : Mat2) (v : ℝ × ℝ) : ℝ × ℝ :=
  (m.a * v.1 + m.b * v.2, m.c * v.1 + m.d * v.2)

/-- Matrix transpose (`np.transpose`). -/
def Mat2.transpose (m : Mat2) : Mat2 :=
  ⟨m.a, m.c, m.b, m.d⟩

/-- Rotation matrix selected by the core's rotation sense, env.py
lines 203-206: `[[0,-1],[1,0]]` when clockwise, `[[0,1],[-1,0]]`
otherwise. -/
noncomputable def rotationOf (clockwise : Bool) : Mat2 :=
  if clockwise then ⟨0, -1, 1, 0⟩ else ⟨0, 1, -1, 0⟩

/-- Distance from the query point to a core center, env.py line 201:
`np.linalg.norm(v_radial)` with `v_radial = (core.x-x, core.y-y)`. -/
noncomputable def pointCoreDist (c : Core) (x y : ℝ) : ℝ :=
  Real.sqrt ((c.x - x) * (c.x - x) + (c.y - y) * (c.y - y))

/-- Velocity contribution of a single core at the query point, env.py
lines 192-209: the radial vector normalized by its norm, rotated by the
sense-selected matrix, scaled by `compute_speed`. -/
noncomputable def coreContribution (x y : ℝ) (c : Core) : ℝ × ℝ :=
  let vr : ℝ × ℝ := (c.x - x, c.y - y)
  let dis := pointCoreDist c x y
  let vru : ℝ × ℝ := (vr.1 / dis, vr.2 / dis)
  let vt := (rotationOf c.clockwise).mulVec vru
  (vt.1 * compute_speed c.Gamma dis, vt.2 * compute_speed c.Gamma dis)

/-- Accumulation loop of `Env.get_velocity`, env.py lines 189-209,
including the dead candidate-occlusion check: for each core the source
computes the projection of the new radial vector onto every vector of
`v_radial_set`, but the `continue` it guards only skips within that
inner loop, so the projections influence nothing; the radial vector is
then appended to the set and the contribution accumulated
unconditionally. The projections are computed (and discarded) here
exactly as in the source. -/
noncomputable def getVelocityAux (x y : ℝ) :
    List Core → List (ℝ × ℝ) → ℝ × ℝ → ℝ × ℝ
  | [], _, acc => acc
  | c :: rest, vset, acc =>
      let vr : ℝ × ℝ := (c.x - x, c.y - y)
      let _projections := vset.map (fun v => v.1 * vr.1 + v.2 * vr.2)
      let contrib := coreContribution x y c
      getVelocityAux x y rest (vset ++ [vr])
        (acc.1 + contrib.1, acc.2 + contrib.2)

/-- `Env.get_velocity` applied to an already distance-sorted core list
(the list the KDTree query of env.py line 187 hands to the loop). -/
noncomputable def get_velocity (sortedCores : List Core) (x y : ℝ) : ℝ × ℝ :=
  getVelocityAux x y sortedCores [] (0, 0)

/-- Ascending-distance ordering of the cores produced by the KDTree
query `self.core_centers.query(np.array([x,y]), k=len(self.cores))`,
env.py line 187, modelled as a stable insertion sort by distance to the
query point. -/
noncomputable def sortByDist (cores : List Core) (x y : ℝ) : List Core :=
  List.insertionSort (fun c1 c2 => pointCoreDist c1 x y ≤ pointCoreDist c2 x y) cores

/-- `Env.get_velocity`, env.py lines 185-211, end to end: KDTree
distance-sorted traversal feeding the accumulation loop. -/
noncomputable def velocity_at (cores : List Core) (x y : ℝ) : ℝ × ℝ :=
  get_velocity (sortByDist cores x y) x y

/-- The same velocity field with the dead occlusion filter removed: the
plain vector sum of the per-core contributions. This definition follows
the words of the spec (contribution vectors summed across all cores)
and is compared against `get_velocity` in the refinement claim. -/
noncomputable def velocity_sum (cores : List Core) (x y : ℝ) : ℝ × ℝ :=
  ((cores.map fun c => (coreContribution x y c).1).sum,
   (cores.map fun c => (coreContribution x y c).2).sum)

/-- Divisors of the divisions performed by the accumulation loop of
`Env.get_velocity` for a query point: for each core, the norm `dis`
that normalizes the radial vector (env.py line 202) and the divisor of
the `compute_speed` branch taken at that distance (env.py lines 215 and
217). The loop only runs when the KDTree query of line 187 returns an
index array, which requires at least two cores: with a single core,
scipy squeezes the `k = 1` query output to scalars and `list(idx)` on
line 191 raises `TypeError` before any division is executed, so for
singleton core lists this list is the divisors the loop would perform,
not divisors the source actually reaches. -/
noncomputable def velocityDivisors (cores : List Core) (x y : ℝ) : List ℝ :=
  cores.flatMap fun c =>
    let dis := pointCoreDist c x y
    [dis, if dis ≤ r then 2 * Real.pi * r * r else 2 * Real.pi * dis]

/-- Modelled from the spec: `robot.get_robot_transform()` (file
`robot.py`, which is not part of the analyzed sources) returns the
body-to-world transform of the agent at heading `theta`: the rotation
matrix by `theta` and, as translation, the agent's world position
(spec section 4.4: world-to-body must be the exact inverse of the
body-to-world transform of the kinematic collaborator). -/
noncomputable def R_wr (theta : ℝ) : Mat2 :=
  ⟨Real.cos theta, -Real.sin theta, Real.sin theta, Real.cos theta⟩

/-- Modelled from the spec: the translation part of the body-to-world
transform, the agent's world position. -/
def t_wr (px py : ℝ) : ℝ × ℝ :=
  (px, py)

/-- Body-to-world map of the external kinematic collaborator (modelled
from the spec): rotate by the heading and translate by the position. -/
noncomputable def body_point_to_world (theta px py : ℝ) (q : ℝ × ℝ) : ℝ × ℝ :=
  (R_wr theta).mulVec q + t_wr px py

/-- World-to-body map used by `Env.get_observation`, env.py
lines 115-133: `R_rw = np.transpose(R_wr)`, `t_rw = -R_rw * t_wr`, and a
point maps to `R_rw * p + t_rw`. -/
noncomputable def world_point_to_body (theta px py : ℝ) (q : ℝ × ℝ) : ℝ × ℝ :=
  let R_rw := (R_wr theta).transpose
  let t_rw := -(R_rw.mulVec (t_wr px py))
  R_rw.mulVec q + t_rw

/-! ### General lemmas about the generation loops -/

lemma coreDist_comm (ci cj : Core) : coreDist ci cj = coreDist cj ci := by
  unfold coreDist
  congr 1
  ring

lemma sameDirOk_symm {ci cj : Core} (h : sameDirOk ci cj) : sameDirOk cj ci := by
  unfold sameDirOk at h ⊢
  rwa [coreDist_comm cj ci, add_comm]

lemma oppositeOk_symm {ci cj : Core} (h : oppositeOk ci cj) : oppositeOk cj ci := by
  unfold oppositeOk at h ⊢
  rwa [coreDist_comm cj ci, max_comm cj.Gamma, min_comm cj.Gamma]

lemma coreOk_symm {ci cj : Core} (h : coreOk ci cj) : coreOk cj ci := by
  unfold coreOk at h ⊢
  by_cases hb : ci.clockwise = cj.clockwise
  · rw [if_pos hb] at h
    rw [if_pos hb.symm]
    exact sameDirOk_symm h
  · rw [if_neg hb] at h
    rw [if_neg (fun hh => hb hh.symm)]
    exact oppositeOk_symm h

lemma obsDist_comm (o1 o2 : Obstacle) : obsDist o1 o2 = obsDist o2 o1 := by
  unfold obsDist
  congr 1
  ring

lemma obsObsOk_symm {o1 o2 : Obstacle} (h : obsObsOk o1 o2) : obsObsOk o2 o1 := by
  unfold obsObsOk at h ⊢
  rwa [obsDist_comm o2 o1, add_comm]

lemma genCoresAux_pairwise (cs : ℕ → CoreDraw) :
    ∀ (fuel k : ℕ) (need : ℤ) (acc lst : List Core),
      acc.Pairwise coreOk →
      genCoresAux cs fuel k need acc = some lst →
      lst.Pairwise coreOk := by
  intro fuel
  induction fuel with
  | zero =>
      intro k need acc lst _ h
      simp [genCoresAux] at h
  | succ n ih =>
      intro k need acc lst hp h
      simp only [genCoresAux] at h
      by_cases hc : check_core acc (mkCore (cs k))
      · rw [if_pos hc] at h
        have hp2 : (acc ++ [mkCore (cs k)]).Pairwise coreOk := by
          rw [List.pairwise_append]
          refine ⟨hp, List.pairwise_singleton _ _, ?_⟩
          intro a ha b hb
          rw [List.mem_singleton] at hb
          subst hb
          exact hc a ha
        by_cases hz : need - 1 = 0
        · rw [if_pos hz] at h
          cases h
          exact hp2
        · rw [if_neg hz] at h
          exact ih _ _ _ _ hp2 h
      · rw [if_neg hc] at h
        by_cases hz : need = 0
        · rw [if_pos hz] at h
          cases h
          exact hp
        · rw [if_neg hz] at h
          exact ih _ _ _ _ hp h

lemma genCoresAux_mem (cs : ℕ → CoreDraw) :
    ∀ (fuel k : ℕ) (need : ℤ) (acc lst : List Core),
      genCoresAux cs fuel k need acc = some lst →
      ∀ c ∈ lst, c ∈ acc ∨ ∃ m, c = mkCore (cs m) := by
  intro fuel
  induction fuel with
  | zero =>
      intro k need acc lst h
      simp [genCoresAux] at h
  | succ n ih =>
      intro k need acc lst h c hc
      simp only [genCoresAux] at h
      by_cases hacc : check_core acc (mkCore (cs k))
      · rw [if_pos hacc] at h
        by_cases hz : need - 1 = 0
        · rw [if_pos hz] at h
          cases h
          rcases List.mem_append.1 hc with hm | hm
          · exact Or.inl hm
          · rw [List.mem_singleton] at hm
            exact Or.inr ⟨k, hm⟩
        · rw [if_neg hz] at h
          rcases ih _ _ _ _ h c hc with hm | hm
          · rcases List.mem_append.1 hm with hm2 | hm2
            · exact Or.inl hm2
            · rw [List.mem_singleton] at hm2
              exact Or.inr ⟨k, hm2⟩
          · exact Or.inr hm
      · rw [if_neg hacc] at h
        by_cases hz : need = 0
        · rw [if_pos hz] at h
          cases h
          exact Or.inl hc
        · rw [if_neg hz] at h
          exact ih _ _ _ _ h c hc

lemma genObsAux_pairwise (cores : List Core) (os : ℕ → ObsDraw) :
    ∀ (fuel k : ℕ) (need : ℤ) (acc lst : List Obstacle),
      acc.Pairwise obsObsOk →
      (∀ o ∈ acc, ∀ c ∈ cores, coreObsOk c o) →
      genObsAux cores os fuel k need acc = some lst →
      lst.Pairwise obsObsOk ∧ ∀ o ∈ lst, ∀ c ∈ cores, coreObsOk c o := by
  intro fuel
  induction fuel with
  | zero =>
      intro k need acc lst _ _ h
      simp [genObsAux] at h
  | succ n ih =>
      intro k need acc lst hp hcore h
      simp only [genObsAux] at h
      by_cases hacc : check_obstacle cores acc (mkObstacle (os k))
      · rw [if_pos hacc] at h
        have hp2 : (acc ++ [mkObstacle (os k)]).Pairwise obsObsOk := by
          rw [List.pairwise_append]
          refine ⟨hp, List.pairwise_singleton _ _, ?_⟩
          intro a ha b hb
          rw [List.mem_singleton] at hb
          subst hb
          exact hacc.2 a ha
        have hcore2 : ∀ o ∈ acc ++ [mkObstacle (os k)], ∀ c ∈ cores, coreObsOk c o := by
          intro o ho c hcm
          rcases List.mem_append.1 ho with hm | hm
          · exact hcore o hm c hcm
          · rw [List.mem_singleton] at hm
            subst hm
            exact hacc.1 c hcm
        by_cases hz : need - 1 = 0
        · rw [if_pos hz] at h
          cases h
          exact ⟨hp2, hcore2⟩
        · rw [if_neg hz] at h
          exact ih _ _ _ _ hp2 hcore2 h
      · rw [if_neg hacc] at h
        by_cases hz : need = 0
        · rw [if_pos hz] at h
          cases h
          exact ⟨hp, hcore⟩
        · rw [if_neg hz] at h
          exact ih _ _ _ _ hp hcore h

lemma reset_parts {cs : ℕ → CoreDraw} {os : ℕ → ObsDraw}
    {num_cores num_obs : ℤ} {fuel : ℕ} {cores : List Core} {obstacles : List Obstacle}
    (h : reset cs os num_cores num_obs fuel = some (cores, obstacles)) :
    genCoresAux cs fuel 0 num_cores [] = some cores ∧
    genObsAux cores os fuel 0 num_obs [] = some obstacles := by
  unfold reset at h
  cases hg : genCoresAux cs fuel 0 num_cores [] with
  | none => rw [hg] at h; cases h
  | some cores2 =>
      rw [hg] at h
      dsimp only at h
      cases ho : genObsAux cores2 os fuel 0 num_obs [] with
      | none => rw [ho] at h; cases h
      | some obstacles2 =>
          rw [ho] at h
          simp only [Option.some.injEq, Prod.mk.injEq] at h
          obtain ⟨h1, h2⟩ := h
          subst h1
          subst h2
          exact ⟨rfl, ho⟩

lemma reset_cores_pairwise {cs : ℕ → CoreDraw} {os : ℕ → ObsDraw}
    {num_cores num_obs : ℤ} {fuel : ℕ} {cores : List Core} {obstacles : List Obstacle}
    (h : reset cs os num_cores num_obs fuel = some (cores, obstacles)) :
    cores.Pairwise coreOk :=
  genCoresAux_pairwise cs fuel 0 num_cores [] cores (List.Pairwise.nil) (reset_parts h).1

lemma reset_cores_mem {cs : ℕ → CoreDraw} {os : ℕ → ObsDraw}
    {num_cores num_obs : ℤ} {fuel : ℕ} {cores : List Core} {obstacles : List Obstacle}
    (h : reset cs os num_cores num_obs fuel = some (cores, obstacles)) :
    ∀ c ∈ cores, ∃ m, c = mkCore (cs m) := by
  intro c hc
  rcases genCoresAux_mem cs fuel 0 num_cores [] cores (reset_parts h).1 c hc with hm | hm
  · cases hm
  · exact hm

lemma reset_obstacles_ok {cs : ℕ → CoreDraw} {os : ℕ → ObsDraw}
    {num_cores num_obs : ℤ} {fuel : ℕ} {cores : List Core} {obstacles : List Obstacle}
    (h : reset cs os num_cores num_obs fuel = some (cores, obstacles)) :
    obstacles.Pairwise obsObsOk ∧ ∀ o ∈ obstacles, ∀ c ∈ cores, coreObsOk c o :=
  genObsAux_pairwise cores os fuel 0 num_obs [] obstacles
    (List.Pairwise.nil) (by intro o ho; cases ho) (reset_parts h).2

/-- Two distinct indices of a `Pairwise coreOk` list are related by
`coreOk` in the stated order, using the symmetry of `coreOk`. -/
lemma pairwise_coreOk_of_ne {l : List Core} (hpw : l.Pairwise coreOk)
    (i j : Fin l.length) (hij : i ≠ j) : coreOk (l.get i) (l.get j) := by
  rcases lt_or_gt_of_ne hij with hlt | hgt
  · exact List.pairwise_iff_get.1 hpw i j hlt
  · exact coreOk_symm (List.pairwise_iff_get.1 hpw j i hgt)

lemma pairwise_obsOk_of_ne {l : List Obstacle} (hpw : l.Pairwise obsObsOk)
    (i j : Fin l.length) (hij : i ≠ j) : obsObsOk (l.get i) (l.get j) := by
  rcases lt_or_gt_of_ne hij with hlt | hgt
  · exact List.pairwise_iff_get.1 hpw i j hlt
  · exact obsObsOk_symm (List.pairwise_iff_get.1 hpw j i hgt)

/-! ### Unfolding equations and concrete-run lemmas -/

lemma genCoresAux_succ (cs : ℕ → CoreDraw) (fuel k : ℕ) (need : ℤ) (acc : List Core) :
    genCoresAux cs (fuel + 1) k need acc =
      (if check_core acc (mkCore (cs k)) then
        if need - 1 = 0 then some (acc ++ [mkCore (cs k)])
        else genCoresAux cs fuel (k + 1) (need - 1) (acc ++ [mkCore (cs k)])
      else
        if need = 0 then some acc
        else genCoresAux cs fuel (k + 1) need acc) := rfl

lemma genObsAux_succ (cores : List Core) (os : ℕ → ObsDraw) (fuel k : ℕ)
    (need : ℤ) (acc : List Obstacle) :
    genObsAux cores os (fuel + 1) k need acc =
      (if check_obstacle cores acc (mkObstacle (os k)) then
        if need - 1 = 0 then some (acc ++ [mkObstacle (os k)])
        else genObsAux cores os fuel (k + 1) (need - 1) (acc ++ [mkObstacle (os k)])
      else
        if need = 0 then some acc
        else genObsAux cores os fuel (k + 1) need acc) := rfl

lemma check_core_nil (c : Core) : check_core [] c := by
  intro ci hci
  cases hci

lemma sqrt_sq_of_nonneg {a b : ℝ} (hb : 0 ≤ b) (he : a = b * b) :
    Real.sqrt a = b := by
  rw [he, Real.sqrt_mul_self hb]

lemma boundary_mk (d : CoreDraw) : boundary (mkCore d) = d.v_edge := by
  unfold boundary mkCore r v_rel_max
  have hπ : Real.pi ≠ 0 := Real.pi_ne_zero
  field_simp

lemma mkCore_Gamma_pos {d : CoreDraw} (hv : 0 < d.v_edge) : 0 < (mkCore d).Gamma := by
  have hπ := Real.pi_pos
  show 0 < 2 * Real.pi * r * d.v_edge
  unfold r
  nlinarith

/-- A two-core, one-obstacle run of `reset` with fuel 2: the first two
core candidates and the first obstacle candidate are accepted. -/
lemma reset_two_one (cs : ℕ → CoreDraw) (os : ℕ → ObsDraw)
    (hc : check_core [mkCore (cs 0)] (mkCore (cs 1)))
    (ho : check_obstacle [mkCore (cs 0), mkCore (cs 1)] [] (mkObstacle (os 0))) :
    reset cs os 2 1 2 = some ([mkCore (cs 0), mkCore (cs 1)], [mkObstacle (os 0)]) := by
  have hg : genCoresAux cs 2 0 2 [] = some [mkCore (cs 0), mkCore (cs 1)] := by
    rw [show (2 : ℕ) = 1 + 1 from rfl, genCoresAux_succ]
    rw [if_pos (check_core_nil _), if_neg (by norm_num : ¬(2 - 1 : ℤ) = 0)]
    rw [show (1 : ℕ) = 0 + 1 from rfl, genCoresAux_succ]
    rw [if_pos (by simpa using hc), if_pos (by norm_num : (2 - 1 - 1 : ℤ) = 0)]
    simp
  have hob : genObsAux [mkCore (cs 0), mkCore (cs 1)] os 2 0 1 [] =
      some [mkObstacle (os 0)] := by
    rw [show (2 : ℕ) = 1 + 1 from rfl, genObsAux_succ]
    rw [if_pos ho, if_pos (by norm_num : (1 - 1 : ℤ) = 0)]
    simp
  unfold reset
  rw [hg]
  dsimp only
  rw [hob]

/-- A one-core, two-obstacle run of `reset` with fuel 2. -/
lemma reset_one_two (cs : ℕ → CoreDraw) (os : ℕ → ObsDraw)
    (ho1 : check_obstacle [mkCore (cs 0)] [] (mkObstacle (os 0)))
    (ho2 : check_obstacle [mkCore (cs 0)] [mkObstacle (os 0)] (mkObstacle (os 1))) :
    reset cs os 1 2 2 = some ([mkCore (cs 0)], [mkObstacle (os 0), mkObstacle (os 1)]) := by
  have hg : genCoresAux cs 2 0 1 [] = some [mkCore (cs 0)] := by
    rw [show (2 : ℕ) = 1 + 1 from rfl, genCoresAux_succ]
    rw [if_pos (check_core_nil _), if_pos (by norm_num : (1 - 1 : ℤ) = 0)]
    simp
  have hob : genObsAux [mkCore (cs 0)] os 2 0 2 [] =
      some [mkObstacle (os 0), mkObstacle (os 1)] := by
    rw [show (2 : ℕ) = 1 + 1 from rfl, genObsAux_succ]
    rw [if_pos ho1, if_neg (by norm_num : ¬(2 - 1 : ℤ) = 0)]
    rw [show (1 : ℕ) = 0 + 1 from rfl, genObsAux_succ]
    rw [if_pos (by simpa using ho2), if_pos (by norm_num : (2 - 1 - 1 : ℤ) = 0)]
    simp
  unfold reset
  rw [hg]
  dsimp only
  rw [hob]

/-- A one-core, one-obstacle run of `reset` with fuel 1. -/
lemma reset_one_one (cs : ℕ → CoreDraw) (os : ℕ → ObsDraw)
    (ho : check_obstacle [mkCore (cs 0)] [] (mkObstacle (os 0))) :
    reset cs os 1 1 1 = some ([mkCore (cs 0)], [mkObstacle (os 0)]) := by
  have hg : genCoresAux cs 1 0 1 [] = some [mkCore (cs 0)] := by
    rw [show (1 : ℕ) = 0 + 1 from rfl, genCoresAux_succ]
    rw [if_pos (check_core_nil _), if_pos (by norm_num : (1 - 1 : ℤ) = 0)]
    simp
  have hob : genObsAux [mkCore (cs 0)] os 1 0 1 [] = some [mkObstacle (os 0)] := by
    rw [show (1 : ℕ) = 0 + 1 from rfl, genObsAux_succ]
    rw [if_pos ho, if_pos (by norm_num : (1 - 1 : ℤ) = 0)]
    simp
  unfold reset
  rw [hg]
  dsimp only
  rw [hob]

/-! ### Claim theorems -/

/-- C1: after every reset that returns, for every pair of accepted cores
with the same rotation sense, the distance between their centers is at
least `boundary(i) + boundary(j)` with
`boundary(c) = Gamma_c / (2π v_rel_max)`, for any random stream (seed)
and any requested core count at least 1. -/
theorem same_direction_separation
    (cs : ℕ → CoreDraw) (os : ℕ → ObsDraw) (num_cores num_obs : ℤ) (fuel : ℕ)
    (cores : List Core) (obstacles : List Obstacle)
    (_hn : 1 ≤ num_cores)
    (h : reset cs os num_cores num_obs fuel = some (cores, obstacles))
    (i j : Fin cores.length) (hij : i ≠ j)
    (hsense : (cores.get i).clockwise = (cores.get j).clockwise) :
    boundary (cores.get i) + boundary (cores.get j) ≤
      coreDist (cores.get i) (cores.get j) := by
  have hok := pairwise_coreOk_of_ne (reset_cores_pairwise h) i j hij
  unfold coreOk at hok
  rw [if_pos hsense] at hok
  exact not_lt.1 hok

/-- Witness for C1: a concrete two-core run of `reset` in which both
accepted cores are clockwise, instantiating the theorem at its indices. -/
noncomputable def c1CS : ℕ → CoreDraw :=
  fun k => if k = 0 then ⟨0, 0, true, 5⟩ else ⟨0, 20, true, 5⟩

/-- Obstacle draw stream for the C1 witness run. -/
noncomputable def c1OS : ℕ → ObsDraw :=
  fun _ => ⟨0, 40, 1⟩

lemma c1_dist : coreDist (mkCore (c1CS 0)) (mkCore (c1CS 1)) = 20 := by
  simp only [coreDist, mkCore, c1CS]
  norm_num
  exact sqrt_sq_of_nonneg (by norm_num) (by norm_num)

lemma c1_check : check_core [mkCore (c1CS 0)] (mkCore (c1CS 1)) := by
  intro ci hci
  rw [List.mem_singleton] at hci
  subst hci
  unfold coreOk
  rw [if_pos (by simp [mkCore, c1CS])]
  unfold sameDirOk
  rw [c1_dist, boundary_mk, boundary_mk]
  simp [c1CS]
  norm_num

lemma c1_obs_check :
    check_obstacle [mkCore (c1CS 0), mkCore (c1CS 1)] [] (mkObstacle (c1OS 0)) := by
  constructor
  · intro c hcm
    have hr : r = 0.5 := rfl
    simp only [List.mem_cons, List.mem_singleton, List.not_mem_nil, or_false] at hcm
    rcases hcm with hcm | hcm
    · subst hcm
      unfold coreObsOk
      have : coreObsDist (mkCore (c1CS 0)) (mkObstacle (c1OS 0)) = 40 := by
        simp only [coreObsDist, mkCore, mkObstacle, c1CS, c1OS]
        norm_num
        exact sqrt_sq_of_nonneg (by norm_num) (by norm_num)
      rw [this, hr]
      simp [mkObstacle, c1OS]
      norm_num
    · subst hcm
      unfold coreObsOk
      have : coreObsDist (mkCore (c1CS 1)) (mkObstacle (c1OS 0)) = 20 := by
        simp only [coreObsDist, mkCore, mkObstacle, c1CS, c1OS]
        norm_num
        exact sqrt_sq_of_nonneg (by norm_num) (by norm_num)
      rw [this, hr]
      simp [mkObstacle, c1OS]
      norm_num
  · intro o1 ho1
    cases ho1

theorem same_direction_separation_witness :
    reset c1CS c1OS 2 1 2 = some ([mkCore (c1CS 0), mkCore (c1CS 1)], [mkObstacle (c1OS 0)]) ∧
    boundary (mkCore (c1CS 0)) + boundary (mkCore (c1CS 1)) ≤
      coreDist (mkCore (c1CS 0)) (mkCore (c1CS 1)) := by
  have hrun := reset_two_one c1CS c1OS c1_check c1_obs_check
  refine ⟨hrun, ?_⟩
  have := same_direction_separation c1CS c1OS 2 1 2 _ _ (by norm_num) hrun
    ⟨0, by norm_num⟩ ⟨1, by norm_num⟩ (by simp [Fin.ext_iff])
    (by simp [mkCore, c1CS])
  simpa using this

/-- C2: after every reset that returns, every pair of accepted cores with
opposite rotation senses satisfies
`Gamma_l / (2π(d - 2r)) ≤ p * Gamma_s / (2π r)` with `Gamma_l`, `Gamma_s`
the larger and smaller circulation strengths and `d` the center
distance. The hypothesis on the stream records that every edge-speed
draw is positive, which `rd.uniform(5, 10)` guarantees. -/
theorem opposite_direction_speed_bound
    (cs : ℕ → CoreDraw) (os : ℕ → ObsDraw) (num_cores num_obs : ℤ) (fuel : ℕ)
    (cores : List Core) (obstacles : List Obstacle)
    (hv : ∀ k, 0 < (cs k).v_edge)
    (h : reset cs os num_cores num_obs fuel = some (cores, obstacles))
    (i j : Fin cores.length) (hij : i ≠ j)
    (hsense : (cores.get i).clockwise ≠ (cores.get j).clockwise) :
    max (cores.get i).Gamma (cores.get j).Gamma /
        (2 * Real.pi * (coreDist (cores.get i) (cores.get j) - 2 * r)) ≤
      p * (min (cores.get i).Gamma (cores.get j).Gamma / (2 * Real.pi * r)) := by
  have hok := pairwise_coreOk_of_ne (reset_cores_pairwise h) i j hij
  unfold coreOk at hok
  rw [if_neg hsense] at hok
  unfold oppositeOk at hok
  have hgi : 0 < (cores.get i).Gamma := by
    obtain ⟨m, hm⟩ := reset_cores_mem h (cores.get i) (cores.get_mem i.1 i.2)
    rw [hm]
    exact mkCore_Gamma_pos (hv m)
  have hne : coreDist (cores.get i) (cores.get j) ≠ 2 * r := by
    intro he
    exact hok.1 ⟨he, lt_max_iff.2 (Or.inl hgi)⟩
  exact not_lt.1 (hok.2 hne)

/-- Core draw stream for the C2 witness run: two cores of opposite
rotation sense, 20 units apart. -/
noncomputable def c2CS : ℕ → CoreDraw :=
  fun k => if k = 0 then ⟨0, 0, true, 5⟩ else ⟨0, 20, false, 5⟩

/-- Obstacle draw stream for the C2 witness run. -/
noncomputable def c2OS : ℕ → ObsDraw :=
  fun _ => ⟨0, 40, 1⟩

lemma c2_dist : coreDist (mkCore (c2CS 0)) (mkCore (c2CS 1)) = 20 := by
  simp only [coreDist, mkCore, c2CS]
  norm_num
  exact sqrt_sq_of_nonneg (by norm_num) (by norm_num)

lemma c2_v1_le_pv2 :
    ¬ (max (mkCore (c2CS 0)).Gamma (mkCore (c2CS 1)).Gamma /
          (2 * Real.pi * (coreDist (mkCore (c2CS 0)) (mkCore (c2CS 1)) - 2 * r)) >
        p * (min (mkCore (c2CS 0)).Gamma (mkCore (c2CS 1)).Gamma / (2 * Real.pi * r))) := by
  rw [c2_dist]
  have hG0 : (mkCore (c2CS 0)).Gamma = 2 * Real.pi * r * 5 := by
    simp [mkCore, c2CS]
  have hG1 : (mkCore (c2CS 1)).Gamma = 2 * Real.pi * r * 5 := by
    simp [mkCore, c2CS]
  rw [hG0, hG1, max_self, min_self]
  unfold r p
  have hπ := Real.pi_pos
  rw [not_lt]
  rw [div_le_iff₀ (by nlinarith)]
  have h5 : 2 * Real.pi * 0.5 * 5 / (2 * Real.pi * 0.5) = 5 := by
    field_simp
  rw [h5]
  nlinarith

lemma c2_check : check_core [mkCore (c2CS 0)] (mkCore (c2CS 1)) := by
  intro ci hci
  rw [List.mem_singleton] at hci
  subst hci
  unfold coreOk
  rw [if_neg (by simp [mkCore, c2CS])]
  constructor
  · rintro ⟨he, -⟩
    rw [c2_dist] at he
    have : r = 0.5 := rfl
    rw [this] at he
    norm_num at he
  · intro _
    exact c2_v1_le_pv2

lemma c2_obs_check :
    check_obstacle [mkCore (c2CS 0), mkCore (c2CS 1)] [] (mkObstacle (c2OS 0)) := by
  constructor
  · intro c hcm
    have hr : r = 0.5 := rfl
    simp only [List.mem_cons, List.mem_singleton, List.not_mem_nil, or_false] at hcm
    rcases hcm with hcm | hcm
    · subst hcm
      unfold coreObsOk
      have : coreObsDist (mkCore (c2CS 0)) (mkObstacle (c2OS 0)) = 40 := by
        simp only [coreObsDist, mkCore, mkObstacle, c2CS, c2OS]
        norm_num
        exact sqrt_sq_of_nonneg (by norm_num) (by norm_num)
      rw [this, hr]
      simp [mkObstacle, c2OS]
      norm_num
    · subst hcm
      unfold coreObsOk
      have : coreObsDist (mkCore (c2CS 1)) (mkObstacle (c2OS 0)) = 20 := by
        simp only [coreObsDist, mkCore, mkObstacle, c2CS, c2OS]
        norm_num
        exact sqrt_sq_of_nonneg (by norm_num) (by norm_num)
      rw [this, hr]
      simp [mkObstacle, c2OS]
      norm_num
  · intro o1 ho1
    cases ho1

theorem opposite_direction_speed_bound_witness :
    reset c2CS c2OS 2 1 2 = some ([mkCore (c2CS 0), mkCore (c2CS 1)], [mkObstacle (c2OS 0)]) ∧
    max (mkCore (c2CS 0)).Gamma (mkCore (c2CS 1)).Gamma /
        (2 * Real.pi * (coreDist (mkCore (c2CS 0)) (mkCore (c2CS 1)) - 2 * r)) ≤
      p * (min (mkCore (c2CS 0)).Gamma (mkCore (c2CS 1)).Gamma / (2 * Real.pi * r)) := by
  have hrun := reset_two_one c2CS c2OS c2_check c2_obs_check
  refine ⟨hrun, ?_⟩
  have := opposite_direction_speed_bound c2CS c2OS 2 1 2 _ _
    (by intro k; by_cases hk : k = 0 <;> simp [c2CS, hk])
    hrun ⟨0, by norm_num⟩ ⟨1, by norm_num⟩ (by simp [Fin.ext_iff])
    (by simp [mkCore, c2CS])
  simpa using this

/-- C3: after every reset that returns, every accepted obstacle is
strictly farther than `r + o.r` from every core center, and every pair
of accepted obstacles is strictly farther apart than the sum of their
radii. -/
theorem obstacle_separation
    (cs : ℕ → CoreDraw) (os : ℕ → ObsDraw) (num_cores num_obs : ℤ) (fuel : ℕ)
    (cores : List Core) (obstacles : List Obstacle)
    (h : reset cs os num_cores num_obs fuel = some (cores, obstacles)) :
    (∀ c ∈ cores, ∀ o ∈ obstacles, r + o.r < coreObsDist c o) ∧
    (∀ (i j : Fin obstacles.length), i ≠ j →
      (obstacles.get i).r + (obstacles.get j).r <
        obsDist (obstacles.get i) (obstacles.get j)) := by
  obtain ⟨hpw, hco⟩ := reset_obstacles_ok h
  constructor
  · intro c hc o ho
    exact not_le.1 (hco o ho c hc)
  · intro i j hij
    exact not_le.1 (pairwise_obsOk_of_ne hpw i j hij)

/-- Core draw stream for the C3 witness run: a single core. -/
noncomputable def c3CS : ℕ → CoreDraw :=
  fun _ => ⟨0, 0, true, 5⟩

/-- Obstacle draw stream for the C3 witness run: two obstacles on the
axis through the core. -/
noncomputable def c3OS : ℕ → ObsDraw :=
  fun k => if k = 0 then ⟨0, 20, 1⟩ else ⟨0, 40, 1⟩

lemma c3_obs_check1 :
    check_obstacle [mkCore (c3CS 0)] [] (mkObstacle (c3OS 0)) := by
  constructor
  · intro c hcm
    rw [List.mem_singleton] at hcm
    subst hcm
    unfold coreObsOk
    have : coreObsDist (mkCore (c3CS 0)) (mkObstacle (c3OS 0)) = 20 := by
      simp only [coreObsDist, mkCore, mkObstacle, c3CS, c3OS]
      norm_num
      exact sqrt_sq_of_nonneg (by norm_num) (by norm_num)
    rw [this, show r = 0.5 from rfl]
    simp [mkObstacle, c3OS]
    norm_num
  · intro o1 ho1
    cases ho1

lemma c3_obs_check2 :
    check_obstacle [mkCore (c3CS 0)] [mkObstacle (c3OS 0)] (mkObstacle (c3OS 1)) := by
  constructor
  · intro c hcm
    rw [List.mem_singleton] at hcm
    subst hcm
    unfold coreObsOk
    have : coreObsDist (mkCore (c3CS 0)) (mkObstacle (c3OS 1)) = 40 := by
      simp only [coreObsDist, mkCore, mkObstacle, c3CS, c3OS]
      norm_num
      exact sqrt_sq_of_nonneg (by norm_num) (by norm_num)
    rw [this, show r = 0.5 from rfl]
    simp [mkObstacle, c3OS]
    norm_num
  · intro o1 ho1
    rw [List.mem_singleton] at ho1
    subst ho1
    unfold obsObsOk
    have : obsDist (mkObstacle (c3OS 0)) (mkObstacle (c3OS 1)) = 20 := by
      simp only [obsDist, mkObstacle, c3OS]
      norm_num
      exact sqrt_sq_of_nonneg (by norm_num) (by norm_num)
    rw [this]
    simp [mkObstacle, c3OS]
    norm_num

theorem obstacle_separation_witness :
    reset c3CS c3OS 1 2 2 =
      some ([mkCore (c3CS 0)], [mkObstacle (c3OS 0), mkObstacle (c3OS 1)]) ∧
    r + (mkObstacle (c3OS 0)).r < coreObsDist (mkCore (c3CS 0)) (mkObstacle (c3OS 0)) ∧
    (mkObstacle (c3OS 0)).r + (mkObstacle (c3OS 1)).r <
      obsDist (mkObstacle (c3OS 0)) (mkObstacle (c3OS 1)) := by
  have hrun := reset_one_two c3CS c3OS c3_obs_check1 c3_obs_check2
  have h := obstacle_separation c3CS c3OS 1 2 2 _ _ hrun
  refine ⟨hrun, ?_, ?_⟩
  · exact h.1 (mkCore (c3CS 0)) (by simp) (mkObstacle (c3OS 0)) (by simp)
  · have := h.2 ⟨0, by norm_num⟩ ⟨1, by norm_num⟩ (by simp [Fin.ext_iff])
    simpa using this

/-- C4: `compute_speed` is the linear solid-body ramp
`Gamma/(2π radius²) · d` for `d ≤ radius` and the potential-flow decay
`Gamma/(2π d)` for `d > radius`, and the two regimes agree at
`d = radius`. -/
theorem compute_speed_piecewise (Gamma d : ℝ) (_hd : 0 ≤ d) :
    (d ≤ r → compute_speed Gamma d = Gamma / (2 * Real.pi * r * r) * d) ∧
    (r < d → compute_speed Gamma d = Gamma / (2 * Real.pi * d)) ∧
    Gamma / (2 * Real.pi * r * r) * r = Gamma / (2 * Real.pi * r) := by
  refine ⟨fun h => ?_, fun h => ?_, ?_⟩
  · rw [compute_speed, if_pos h]
  · rw [compute_speed, if_neg (not_le.2 h)]
  · have hπ : Real.pi ≠ 0 := Real.pi_ne_zero
    unfold r
    rw [div_mul_eq_mul_div, div_eq_div_iff (by positivity) (by positivity)]
    ring

theorem compute_speed_piecewise_witness :
    0 ≤ (1 : ℝ) ∧
    ((1 : ℝ) ≤ r → compute_speed 1 1 = 1 / (2 * Real.pi * r * r) * 1) ∧
    (r < (1 : ℝ) → compute_speed 1 1 = 1 / (2 * Real.pi * 1)) ∧
    (1 : ℝ) / (2 * Real.pi * r * r) * r = 1 / (2 * Real.pi * r) :=
  ⟨by norm_num, compute_speed_piecewise 1 1 (by norm_num)⟩

lemma getVelocityAux_eq (x y : ℝ) :
    ∀ (l : List Core) (vset : List (ℝ × ℝ)) (acc : ℝ × ℝ),
      getVelocityAux x y l vset acc =
        (acc.1 + (l.map fun c => (coreContribution x y c).1).sum,
         acc.2 + (l.map fun c => (coreContribution x y c).2).sum) := by
  intro l
  induction l with
  | nil =>
      intro vset acc
      simp [getVelocityAux]
  | cons c rest ih =>
      intro vset acc
      simp only [getVelocityAux]
      rw [ih]
      simp only [List.map_cons, List.sum_cons]
      rw [Prod.mk.injEq]
      constructor <;> ring

/-- C5: for every query point not coinciding with a core center,
`get_velocity` returns exactly the vector sum over all cores of the
rotated unit radial vector scaled by `compute_speed`; the
candidate-occlusion projection check of the source never excludes a core
from the sum, so the function with the KDTree ordering and the dead
filter is extensionally equal to the plain sum over the cores with the
filter removed. -/
theorem get_velocity_unfiltered
    (cores : List Core) (x y : ℝ)
    (_hnc : ∀ c ∈ cores, (c.x, c.y) ≠ (x, y)) :
    velocity_at cores x y = velocity_sum cores x y := by
  unfold velocity_at get_velocity velocity_sum
  rw [getVelocityAux_eq]
  have hperm := List.perm_insertionSort
    (fun c1 c2 => pointCoreDist c1 x y ≤ pointCoreDist c2 x y) cores
  unfold sortByDist
  rw [(hperm.map fun c => (coreContribution x y c).1).sum_eq,
      (hperm.map fun c => (coreContribution x y c).2).sum_eq]
  simp

theorem get_velocity_unfiltered_witness :
    (∀ c ∈ [({ x := 0, y := 0, clockwise := true, Gamma := 5 } : Core)],
      (c.x, c.y) ≠ ((1 : ℝ), (1 : ℝ))) ∧
    velocity_at [({ x := 0, y := 0, clockwise := true, Gamma := 5 } : Core)] 1 1 =
      velocity_sum [({ x := 0, y := 0, clockwise := true, Gamma := 5 } : Core)] 1 1 := by
  have hnc : ∀ c ∈ [({ x := 0, y := 0, clockwise := true, Gamma := 5 } : Core)],
      (c.x, c.y) ≠ ((1 : ℝ), (1 : ℝ)) := by
    intro c hc
    rw [List.mem_singleton] at hc
    subst hc
    simp [Prod.ext_iff]
  exact ⟨hnc, get_velocity_unfiltered _ 1 1 hnc⟩

/-- C6: the world-to-body transform built by `Env.get_observation`
(transpose rotation, negated rotated translation) is the exact inverse
of the body-to-world transform of the kinematic collaborator: the
round trip in either order returns the original point, for every
heading and every agent position. -/
theorem frame_transform_inverse (theta px py : ℝ) (q : ℝ × ℝ) :
    world_point_to_body theta px py (body_point_to_world theta px py q) = q ∧
    body_point_to_world theta px py (world_point_to_body theta px py q) = q := by
  have hsc := Real.sin_sq_add_cos_sq theta
  unfold world_point_to_body body_point_to_world R_wr t_wr Mat2.transpose Mat2.mulVec
  simp only [Prod.mk_add_mk, Prod.neg_mk]
  refine ⟨?_, ?_⟩ <;> rw [Prod.ext_iff] <;> refine ⟨?_, ?_⟩ <;> dsimp only
  · linear_combination q.1 * hsc
  · linear_combination q.2 * hsc
  · linear_combination (q.1 - px) * hsc
  · linear_combination (q.2 - py) * hsc

/-- C7: scenario generation is a deterministic function of the seed and
the generation parameters: two runs with equal seeds and equal
parameters produce identical core and obstacle sequences, and hence
identical velocity-field answers at every query point. The PRNG is
modelled as an arbitrary function from the seed to the draw stream,
which is the documented deterministic contract of
`np.random.RandomState(seed)`. -/
theorem reset_deterministic
    (prngC : ℕ → ℕ → CoreDraw) (prngO : ℕ → ℕ → ObsDraw)
    (seed1 seed2 : ℕ) (nc1 nc2 no1 no2 : ℤ) (fuel1 fuel2 : ℕ)
    (hseed : seed1 = seed2) (hnc : nc1 = nc2) (hno : no1 = no2)
    (hfuel : fuel1 = fuel2) :
    reset (prngC seed1) (prngO seed1) nc1 no1 fuel1 =
      reset (prngC seed2) (prngO seed2) nc2 no2 fuel2 ∧
    ∀ x y : ℝ,
      Option.map (fun s => velocity_at s.1 x y)
          (reset (prngC seed1) (prngO seed1) nc1 no1 fuel1) =
        Option.map (fun s => velocity_at s.1 x y)
          (reset (prngC seed2) (prngO seed2) nc2 no2 fuel2) := by
  subst hseed
  subst hnc
  subst hno
  subst hfuel
  exact ⟨rfl, fun x y => rfl⟩

/-- Seeded PRNG model for the C7 witness: every seed yields the constant
core-draw stream. -/
noncomputable def c7PC : ℕ → ℕ → CoreDraw :=
  fun _ _ => ⟨0, 0, true, 5⟩

/-- Seeded PRNG model for the C7 witness, obstacle part. -/
noncomputable def c7PO : ℕ → ℕ → ObsDraw :=
  fun _ _ => ⟨0, 20, 1⟩

theorem reset_deterministic_witness :
    reset (c7PC 0) (c7PO 0) 1 1 1 = reset (c7PC 0) (c7PO 0) 1 1 1 ∧
    ∀ x y : ℝ,
      Option.map (fun s => velocity_at s.1 x y) (reset (c7PC 0) (c7PO 0) 1 1 1) =
        Option.map (fun s => velocity_at s.1 x y) (reset (c7PC 0) (c7PO 0) 1 1 1) :=
  reset_deterministic c7PC c7PO 0 0 1 1 1 1 1 1 rfl rfl rfl rfl

/-- C9 counterexample: the claim that every internal division of
`get_velocity` is well-defined at every query point, including points
coinciding with a core center, is false. The scenario has two cores, so
the accumulation loop genuinely runs (the KDTree query returns an index
array and `list(idx)` succeeds): at the center of the core at (1,2) the
radial normalization then divides by a zero norm — in the source a
float `0/0`, which yields NaN components without raising. (With a
single core the claim fails even earlier: scipy squeezes the `k = 1`
query output to scalars and `list(idx)` raises `TypeError` at every
query point, before any division.) -/
theorem velocity_division_by_zero_at_center :
    ¬ (∀ v ∈ velocityDivisors
        [({ x := 1, y := 2, clockwise := true, Gamma := 5 } : Core),
         ({ x := 30, y := 40, clockwise := false, Gamma := 5 } : Core)] 1 2,
        v ≠ 0) := by
  intro h
  apply h 0 _ rfl
  have hd : pointCoreDist ({ x := 1, y := 2, clockwise := true, Gamma := 5 } : Core) 1 2 = 0 := by
    simp [pointCoreDist]
  simp [velocityDivisors, hd]

/-- C9 (amended): for scenarios with at least two cores (so that the
KDTree query returns an index array and the accumulation loop actually
runs; with a single core `list(idx)` raises `TypeError` before any
division, since scipy squeezes the `k = 1` query output to scalars),
`get_velocity` raises no error at any query point, and for every query
point that does not coincide with any core center every division it
performs (the radial normalization by the distance and the
`compute_speed` division of whichever branch is taken) has a nonzero
divisor; at a core center the normalization divides zero by zero (numpy
produces NaN components there, still without raising). -/
theorem velocity_divisors_nonzero
    (cores : List Core) (x y : ℝ) (_h2 : 2 ≤ cores.length)
    (h : ∀ c ∈ cores, (c.x, c.y) ≠ (x, y)) :
    ∀ v ∈ velocityDivisors cores x y, v ≠ 0 := by
  intro v hv
  simp only [velocityDivisors, List.mem_flatMap] at hv
  obtain ⟨c, hc, hm⟩ := hv
  have hdpos : 0 < pointCoreDist c x y := by
    have hne := h c hc
    unfold pointCoreDist
    apply Real.sqrt_pos.2
    have h1 : 0 ≤ (c.x - x) * (c.x - x) := mul_self_nonneg _
    have h2 : 0 ≤ (c.y - y) * (c.y - y) := mul_self_nonneg _
    have hne2 : c.x - x ≠ 0 ∨ c.y - y ≠ 0 := by
      by_contra hcon
      push_neg at hcon
      obtain ⟨e1, e2⟩ := hcon
      exact hne (by rw [sub_eq_zero.1 e1, sub_eq_zero.1 e2])
    rcases hne2 with hx | hx
    · have h3 : 0 < (c.x - x) * (c.x - x) := mul_self_pos.2 hx
      nlinarith
    · have h3 : 0 < (c.y - y) * (c.y - y) := mul_self_pos.2 hx
      nlinarith
  simp only [List.mem_cons, List.mem_singleton, List.not_mem_nil, or_false] at hm
  rcases hm with hm | hm
  · subst hm
    exact hdpos.ne'
  · subst hm
    by_cases hle : pointCoreDist c x y ≤ r
    · rw [if_pos hle]
      have hpos : (0 : ℝ) < 2 * Real.pi * r * r := by
        rw [show r = 0.5 from rfl]
        positivity
      exact hpos.ne'
    · rw [if_neg hle]
      exact (mul_pos (by positivity) hdpos).ne'

theorem velocity_divisors_nonzero_witness :
    2 ≤ ([({ x := 0, y := 0, clockwise := true, Gamma := 5 } : Core),
          ({ x := 30, y := 40, clockwise := false, Gamma := 5 } : Core)]).length ∧
    (∀ c ∈ [({ x := 0, y := 0, clockwise := true, Gamma := 5 } : Core),
            ({ x := 30, y := 40, clockwise := false, Gamma := 5 } : Core)],
      (c.x, c.y) ≠ ((1 : ℝ), (1 : ℝ))) ∧
    ∀ v ∈ velocityDivisors
        [({ x := 0, y := 0, clockwise := true, Gamma := 5 } : Core),
         ({ x := 30, y := 40, clockwise := false, Gamma := 5 } : Core)] 1 1,
      v ≠ 0 := by
  have hnc : ∀ c ∈ [({ x := 0, y := 0, clockwise := true, Gamma := 5 } : Core),
      ({ x := 30, y := 40, clockwise := false, Gamma := 5 } : Core)],
      (c.x, c.y) ≠ ((1 : ℝ), (1 : ℝ)) := by
    intro c hc
    simp only [List.mem_cons, List.mem_singleton, List.not_mem_nil, or_false] at hc
    rcases hc with hc | hc <;>
      · subst hc
        simp [Prod.ext_iff]
  exact ⟨by norm_num, hnc, velocity_divisors_nonzero _ 1 1 (by norm_num) hnc⟩

lemma v1_neg_of_close {ci cj : Core} (hgi : 0 < ci.Gamma) (_hgj : 0 < cj.Gamma)
    (hd : coreDist ci cj < 2 * r) :
    max ci.Gamma cj.Gamma / (2 * Real.pi * (coreDist ci cj - 2 * r)) < 0 :=
  div_neg_of_pos_of_neg (lt_max_iff.2 (Or.inl hgi))
    (by nlinarith [Real.pi_pos])

lemma coreOk_of_opposite_close {ci cj : Core} (hsense : ci.clockwise ≠ cj.clockwise)
    (hgi : 0 < ci.Gamma) (hgj : 0 < cj.Gamma) (hd : coreDist ci cj < 2 * r) :
    coreOk ci cj := by
  unfold coreOk
  rw [if_neg hsense]
  constructor
  · rintro ⟨he, -⟩
    rw [he] at hd
    exact lt_irrefl _ hd
  · intro _
    rw [not_lt]
    apply le_of_lt
    apply lt_trans (v1_neg_of_close hgi hgj hd)
    apply mul_pos
    · rw [show p = 0.8 from rfl]
      norm_num
    · apply div_pos (lt_min_iff.2 ⟨hgi, hgj⟩)
      rw [show r = 0.5 from rfl]
      positivity

/-- Core draw stream for the C10 concrete run: two candidate cores with
identical centers and opposite rotation senses. -/
noncomputable def c10CS : ℕ → CoreDraw :=
  fun k => if k = 0 then ⟨10, 10, true, 5⟩ else ⟨10, 10, false, 5⟩

/-- Obstacle draw stream for the C10 concrete run. -/
noncomputable def c10OS : ℕ → ObsDraw :=
  fun _ => ⟨40, 10, 1⟩

lemma c10_dist : coreDist (mkCore (c10CS 0)) (mkCore (c10CS 1)) = 0 := by
  simp [coreDist, mkCore, c10CS]

lemma c10_check : check_core [mkCore (c10CS 0)] (mkCore (c10CS 1)) := by
  intro ci hci
  rw [List.mem_singleton] at hci
  subst hci
  apply coreOk_of_opposite_close
  · simp [mkCore, c10CS]
  · exact mkCore_Gamma_pos (by norm_num [c10CS])
  · exact mkCore_Gamma_pos (by norm_num [c10CS])
  · rw [c10_dist, show r = 0.5 from rfl]
    norm_num

lemma c10_obs_check :
    check_obstacle [mkCore (c10CS 0), mkCore (c10CS 1)] [] (mkObstacle (c10OS 0)) := by
  constructor
  · intro c hcm
    simp only [List.mem_cons, List.mem_singleton, List.not_mem_nil, or_false] at hcm
    have hdist : ∀ k, coreObsDist (mkCore (c10CS k)) (mkObstacle (c10OS 0)) = 30 := by
      intro k
      by_cases hk : k = 0 <;>
        · simp only [coreObsDist, mkCore, mkObstacle, c10CS, c10OS, hk]
          norm_num
          exact sqrt_sq_of_nonneg (by norm_num) (by norm_num)
    rcases hcm with hcm | hcm <;>
      · subst hcm
        unfold coreObsOk
        first
        | rw [hdist 0]
        | rw [hdist 1]
        rw [show r = 0.5 from rfl]
        simp [mkObstacle, c10OS]
        norm_num
  · intro o1 ho1
    cases ho1

/-- C10: in the opposite-rotation branch of `check_core`, at center
distance exactly `2r` the boundary-speed formula divides by zero, and at
distance below `2r` the computed speed `Gamma_l/(2π(d-2r))` is negative,
so the constraint comparison passes and the candidate is accepted; hence
`reset` can place two opposite-rotation cores arbitrarily close
together, including with exactly overlapping centers. -/
theorem opposite_close_cores_accepted
    (ci cj : Core) (hsense : ci.clockwise ≠ cj.clockwise)
    (hgi : 0 < ci.Gamma) (hgj : 0 < cj.Gamma) :
    (coreDist ci cj = 2 * r → 2 * Real.pi * (coreDist ci cj - 2 * r) = 0) ∧
    (coreDist ci cj < 2 * r →
      max ci.Gamma cj.Gamma / (2 * Real.pi * (coreDist ci cj - 2 * r)) < 0 ∧
      check_core [ci] cj) ∧
    ∃ cores obstacles, reset c10CS c10OS 2 1 2 = some (cores, obstacles) ∧
      ∃ (i j : Fin cores.length), i ≠ j ∧
        (cores.get i).clockwise ≠ (cores.get j).clockwise ∧
        coreDist (cores.get i) (cores.get j) = 0 := by
  refine ⟨fun he => by rw [he]; ring, fun hd => ?_, ?_⟩
  · refine ⟨v1_neg_of_close hgi hgj hd, ?_⟩
    intro c hcm
    rw [List.mem_singleton] at hcm
    subst hcm
    exact coreOk_of_opposite_close hsense hgi hgj hd
  · refine ⟨[mkCore (c10CS 0), mkCore (c10CS 1)], [mkObstacle (c10OS 0)],
      reset_two_one c10CS c10OS c10_check c10_obs_check,
      ⟨0, by norm_num⟩, ⟨1, by norm_num⟩, by simp [Fin.ext_iff], ?_, ?_⟩
    · simp [mkCore, c10CS]
    · simpa using c10_dist

theorem opposite_close_cores_accepted_witness :
    (({ x := 0, y := 0, clockwise := true, Gamma := 1 } : Core).clockwise ≠
      ({ x := 0, y := 0, clockwise := false, Gamma := 1 } : Core).clockwise) ∧
    0 < ({ x := 0, y := 0, clockwise := true, Gamma := 1 } : Core).Gamma ∧
    0 < ({ x := 0, y := 0, clockwise := false, Gamma := 1 } : Core).Gamma ∧
    ((coreDist { x := 0, y := 0, clockwise := true, Gamma := 1 }
        { x := 0, y := 0, clockwise := false, Gamma := 1 } = 2 * r →
      2 * Real.pi * (coreDist { x := 0, y := 0, clockwise := true, Gamma := 1 }
        { x := 0, y := 0, clockwise := false, Gamma := 1 } - 2 * r) = 0) ∧
    (coreDist { x := 0, y := 0, clockwise := true, Gamma := 1 }
        { x := 0, y := 0, clockwise := false, Gamma := 1 } < 2 * r →
      max ({ x := 0, y := 0, clockwise := true, Gamma := 1 } : Core).Gamma
          ({ x := 0, y := 0, clockwise := false, Gamma := 1 } : Core).Gamma /
          (2 * Real.pi * (coreDist { x := 0, y := 0, clockwise := true, Gamma := 1 }
            { x := 0, y := 0, clockwise := false, Gamma := 1 } - 2 * r)) < 0 ∧
      check_core [{ x := 0, y := 0, clockwise := true, Gamma := 1 }]
        { x := 0, y := 0, clockwise := false, Gamma := 1 }) ∧
    ∃ cores obstacles, reset c10CS c10OS 2 1 2 = some (cores, obstacles) ∧
      ∃ (i j : Fin cores.length), i ≠ j ∧
        (cores.get i).clockwise ≠ (cores.get j).clockwise ∧
        coreDist (cores.get i) (cores.get j) = 0) :=
  ⟨by simp, by norm_num, by norm_num,
    opposite_close_cores_accepted _ _ (by simp) (by norm_num) (by norm_num)⟩

/-! ### C8: the generation loops are unbounded and surface no failure -/

lemma genCoresAux_length (cs : ℕ → CoreDraw) :
    ∀ (fuel k : ℕ) (need : ℤ) (acc lst : List Core), 1 ≤ need →
      genCoresAux cs fuel k need acc = some lst →
      lst.length = acc.length + need.toNat := by
  intro fuel
  induction fuel with
  | zero =>
      intro k need acc lst _ h
      simp [genCoresAux] at h
  | succ n ih =>
      intro k need acc lst hn h
      simp only [genCoresAux] at h
      by_cases hc : check_core acc (mkCore (cs k))
      · rw [if_pos hc] at h
        by_cases hz : need - 1 = 0
        · rw [if_pos hz] at h
          cases h
          have h1 : need = 1 := by omega
          subst h1
          simp
        · rw [if_neg hz] at h
          have := ih _ _ _ _ (by omega) h
          rw [this]
          simp
          omega
      · rw [if_neg hc] at h
        rw [if_neg (by omega : ¬ need = 0)] at h
        exact ih _ _ _ _ hn h

/-- Range of the random draws of the core generation loop, env.py
lines 60-62: `rd.uniform` over the domain rectangle for the position and
over `v_range` for the edge speed. -/
noncomputable def coreDrawInRange (d : CoreDraw) : Prop :=
  0 ≤ d.x ∧ d.x ≤ width ∧ 0 ≤ d.y ∧ d.y ≤ height ∧
  v_range.1 ≤ d.v_edge ∧ d.v_edge ≤ v_range.2

/-- Index of the 6.25-wide horizontal or vertical band (8 bands cover
[0,50]) that a coordinate falls into, used for the packing argument. -/
noncomputable def cell (t : ℝ) : Fin 8 :=
  ⟨min 7 ⌊t / (25 / 4)⌋₊, by omega⟩

lemma cell_bounds (t : ℝ) (h0 : 0 ≤ t) (h50 : t ≤ 50) :
    (25 / 4 : ℝ) * ((cell t).1 : ℝ) ≤ t ∧
    t ≤ (25 / 4 : ℝ) * ((cell t).1 : ℝ) + 25 / 4 := by
  have hq : (0 : ℝ) ≤ t / (25 / 4) := by positivity
  have key : t / (25 / 4 : ℝ) = t * (4 / 25) := by ring
  have f1 : (⌊t / (25 / 4 : ℝ)⌋₊ : ℝ) ≤ t * (4 / 25) := by
    rw [← key]
    exact Nat.floor_le hq
  have f2 : t * (4 / 25) < (⌊t / (25 / 4 : ℝ)⌋₊ : ℝ) + 1 := by
    rw [← key]
    exact Nat.lt_floor_add_one _
  by_cases h7 : ⌊t / (25 / 4 : ℝ)⌋₊ ≤ 7
  · have hcell : (cell t).1 = ⌊t / (25 / 4 : ℝ)⌋₊ := by
      simp only [cell]
      omega
    rw [hcell]
    constructor <;> linarith
  · have hcell : (cell t).1 = 7 := by
      simp only [cell]
      omega
    rw [hcell]
    have h8n : 8 ≤ ⌊t / (25 / 4 : ℝ)⌋₊ := by omega
    have h8 : (8 : ℝ) ≤ (⌊t / (25 / 4 : ℝ)⌋₊ : ℝ) := by exact_mod_cast h8n
    constructor <;> push_cast <;> linarith

lemma same_cell_close {t1 t2 : ℝ} (h01 : 0 ≤ t1) (h501 : t1 ≤ 50)
    (h02 : 0 ≤ t2) (h502 : t2 ≤ 50) (hc : cell t1 = cell t2) :
    t1 - t2 ≤ 25 / 4 ∧ t2 - t1 ≤ 25 / 4 := by
  have b1 := cell_bounds t1 h01 h501
  have b2 := cell_bounds t2 h02 h502
  rw [hc] at b1
  constructor <;> linarith [b1.1, b1.2, b2.1, b2.2]

lemma dist_lt_ten_of_same_cell {ci cj : Core}
    (hxi0 : 0 ≤ ci.x) (hxi5 : ci.x ≤ 50) (hyi0 : 0 ≤ ci.y) (hyi5 : ci.y ≤ 50)
    (hxj0 : 0 ≤ cj.x) (hxj5 : cj.x ≤ 50) (hyj0 : 0 ≤ cj.y) (hyj5 : cj.y ≤ 50)
    (hcx : cell ci.x = cell cj.x) (hcy : cell ci.y = cell cj.y) :
    coreDist ci cj < 10 := by
  have hx := same_cell_close hxi0 hxi5 hxj0 hxj5 hcx
  have hy := same_cell_close hyi0 hyi5 hyj0 hyj5 hcy
  have harg : (ci.x - cj.x) * (ci.x - cj.x) + (ci.y - cj.y) * (ci.y - cj.y) ≤ 625 / 8 := by
    nlinarith [hx.1, hx.2, hy.1, hy.2]
  have hle : coreDist ci cj ≤ Real.sqrt (625 / 8) := Real.sqrt_le_sqrt harg
  have hlt : Real.sqrt (625 / 8) < 10 := by
    rw [show (10 : ℝ) = Real.sqrt 100 from (sqrt_sq_of_nonneg (by norm_num) (by norm_num)).symm]
    exact Real.sqrt_lt_sqrt (by norm_num) (by norm_num)
  linarith

/-- No list of 129 cores inside the 50x50 domain with boundary radii at
least 5 can be pairwise accepted: two of them share a rotation sense and
a 6.25-square cell (pigeonhole over the 2·8·8 = 128 classes), hence are
closer than 10, while the same-direction constraint forces at least
`boundary + boundary ≥ 10`. -/
lemma no_129_cores (lst : List Core)
    (hlen : lst.length = 129)
    (hin : ∀ c ∈ lst, 0 ≤ c.x ∧ c.x ≤ 50 ∧ 0 ≤ c.y ∧ c.y ≤ 50)
    (hb : ∀ c ∈ lst, (5 : ℝ) ≤ boundary c)
    (hpw : lst.Pairwise coreOk) : False := by
  have hcard : Fintype.card (Bool × Fin 8 × Fin 8) < Fintype.card (Fin 129) := by
    simp
  obtain ⟨i, j, hij, hfe⟩ := Fintype.exists_ne_map_eq_of_card_lt
    (fun i : Fin 129 =>
      ((lst.get (Fin.cast hlen.symm i)).clockwise,
       cell (lst.get (Fin.cast hlen.symm i)).x,
       cell (lst.get (Fin.cast hlen.symm i)).y)) hcard
  have hij' : Fin.cast hlen.symm i ≠ Fin.cast hlen.symm j := by
    intro he
    apply hij
    rw [Fin.ext_iff] at he ⊢
    exact he
  set ci := lst.get (Fin.cast hlen.symm i) with hci
  set cj := lst.get (Fin.cast hlen.symm j) with hcj
  have hmi : ci ∈ lst := lst.get_mem _ _
  have hmj : cj ∈ lst := lst.get_mem _ _
  have hsense : ci.clockwise = cj.clockwise := congrArg Prod.fst hfe
  have hcx : cell ci.x = cell cj.x := congrArg (fun z => z.2.1) hfe
  have hcy : cell ci.y = cell cj.y := congrArg (fun z => z.2.2) hfe
  have hok := pairwise_coreOk_of_ne hpw (Fin.cast hlen.symm i) (Fin.cast hlen.symm j) hij'
  rw [← hci, ← hcj] at hok
  unfold coreOk at hok
  rw [if_pos hsense] at hok
  unfold sameDirOk at hok
  have hd := not_lt.1 hok
  obtain ⟨hxi0, hxi5, hyi0, hyi5⟩ := hin ci hmi
  obtain ⟨hxj0, hxj5, hyj0, hyj5⟩ := hin cj hmj
  have hlt := dist_lt_ten_of_same_cell hxi0 hxi5 hyi0 hyi5 hxj0 hxj5 hyj0 hyj5 hcx hcy
  have h10 : (10 : ℝ) ≤ coreDist ci cj := by
    have := hb ci hmi
    have := hb cj hmj
    linarith
  linarith

/-- C8 (amended): the reference `reset` has no retry budget and no
`PlacementInfeasible` failure: with the infeasible request of 129 cores
(which cannot all satisfy the same-direction separation constraint
inside the 50x50 domain), the generation loop never returns for any
in-range random stream — the fuel-indexed model yields `none` for every
finite fuel, surfacing nothing to the caller. -/
theorem infeasible_reset_never_returns
    (cs : ℕ → CoreDraw) (os : ℕ → ObsDraw)
    (hin : ∀ k, coreDrawInRange (cs k)) :
    ∀ (num_obs : ℤ) (fuel : ℕ), reset cs os 129 num_obs fuel = none := by
  intro num_obs fuel
  cases hg : genCoresAux cs fuel 0 129 [] with
  | none =>
      unfold reset
      rw [hg]
  | some lst =>
      exfalso
      have hlen : lst.length = 129 := by
        have := genCoresAux_length cs fuel 0 129 [] lst (by norm_num) hg
        simpa using this
      have hmem := genCoresAux_mem cs fuel 0 129 [] lst hg
      apply no_129_cores lst hlen
      · intro c hc
        rcases hmem c hc with h0 | ⟨m, hm⟩
        · cases h0
        · subst hm
          obtain ⟨h1, h2, h3, h4, -, -⟩ := hin m
          exact ⟨h1, by simpa [width] using h2, h3, by simpa [height] using h4⟩
      · intro c hc
        rcases hmem c hc with h0 | ⟨m, hm⟩
        · cases h0
        · subst hm
          rw [boundary_mk]
          have h5 := (hin m).2.2.2.2.1
          simpa [v_range] using h5
      · exact genCoresAux_pairwise cs fuel 0 129 [] lst List.Pairwise.nil hg

/-- Constant core-draw stream used in the C8 counterexample. -/
noncomputable def c8CS : ℕ → CoreDraw :=
  fun _ => ⟨25, 25, true, 5⟩

/-- Constant obstacle-draw stream used in the C8 counterexample. -/
noncomputable def c8OS : ℕ → ObsDraw :=
  fun _ => ⟨25, 25, 1⟩

lemma c8_reject (k : ℕ) : ¬ check_core [mkCore (c8CS 0)] (mkCore (c8CS k)) := by
  intro h
  have hok := h (mkCore (c8CS 0)) (by simp)
  unfold coreOk at hok
  rw [if_pos (show (mkCore (c8CS 0)).clockwise = (mkCore (c8CS k)).clockwise from rfl)] at hok
  unfold sameDirOk at hok
  apply hok
  have hd : coreDist (mkCore (c8CS 0)) (mkCore (c8CS k)) = 0 := by
    simp [coreDist, mkCore, c8CS]
  rw [hd, boundary_mk, boundary_mk]
  simp [c8CS]

lemma c8_stuck : ∀ (fuel k : ℕ),
    genCoresAux c8CS fuel k 128 [mkCore (c8CS 0)] = none := by
  intro fuel
  induction fuel with
  | zero =>
      intro k
      rfl
  | succ n ih =>
      intro k
      rw [genCoresAux_succ]
      rw [if_neg (c8_reject k), if_neg (by norm_num : ¬(128 : ℤ) = 0)]
      exact ih (k + 1)

lemma c8_never_returns : ∀ fuel : ℕ, reset c8CS c8OS 129 5 fuel = none := by
  intro fuel
  cases fuel with
  | zero =>
      rfl
  | succ n =>
      have hg : genCoresAux c8CS (n + 1) 0 129 [] = none := by
        rw [genCoresAux_succ]
        rw [if_pos (check_core_nil _), if_neg (by norm_num : ¬(129 - 1 : ℤ) = 0)]
        have := c8_stuck n 1
        norm_num at this ⊢
        exact this
      unfold reset
      rw [hg]

/-- C8 counterexample: the claim that, on an infeasible configuration,
`reset` terminates within a configured retry budget and surfaces a
`PlacementInfeasible` failure is false for the code: on the (infeasible)
request of 129 cores, run against a concrete constant in-range stream on
which every candidate after the first is rejected, the generation loop
has still not returned after one million and after ten million
iterations, and no failure of any kind is surfaced — the source has no
retry budget and no `PlacementInfeasible` at all (the companion theorem
extends this to every fuel and every in-range stream). -/
theorem unbounded_generation_loop :
    reset c8CS c8OS 129 5 1000000 = none ∧
    reset c8CS c8OS 129 5 10000000 = none :=
  ⟨c8_never_returns 1000000, c8_never_returns 10000000⟩

theorem infeasible_reset_never_returns_witness :
    (∀ k, coreDrawInRange (c8CS k)) ∧ reset c8CS c8OS 129 7 50 = none := by
  have hin : ∀ k, coreDrawInRange (c8CS k) := by
    intro k
    refine ⟨by norm_num [c8CS], ?_, by norm_num [c8CS], ?_, ?_, ?_⟩
    · rw [show width = 50 from rfl]
      norm_num [c8CS]
    · rw [show height = 50 from rfl]
      norm_num [c8CS]
    · rw [show v_range = ((5 : ℝ), (10 : ℝ)) from rfl]
      norm_num [c8CS]
    · rw [show v_range = ((5 : ℝ), (10 : ℝ)) from rfl]
      norm_num [c8CS]
  exact ⟨hin, infeasible_reset_never_returns c8CS c8OS hin 7 50⟩

end MarineNav
